import Mathlib

/-!
Shallow embedding of the SAM alignment-reconstruction and indel-extraction
core of cov-ert/gofasta (pkg/sam/sam.go and pkg/sam/indels.go), with
theorems checking the specification's claims against it.

Conventions:
* Go `byte` values are modelled as `Nat` (ASCII codes: 42 = asterisk,
  45 = hyphen/gap, 78 = N, 65 = A, 67 = C, ...).
* Go `int` cursors that can be negative (the SAM POS field) are `Int`;
  the query cursor starts at 0 and only grows, so it is `Nat`.
* Go slice expressions `s[a:b]` panic when out of range; fallible code is
  modelled with `Except String`.
* CIGAR operations are keyed by strings ("M", "I", ...) exactly as the Go
  code dispatches on `op.Type().String()` through a map of lambdas; looking
  up an unknown key yields a nil function whose call panics, modelled as an
  `Except.error`.
-/

namespace Gofasta

abbrev Byte := Nat

/-- Go `unicode.IsLetter` applied to the rune obtained by
`utf8.DecodeRune` on a single byte: bytes below 0x80 decode to the
ASCII rune (a letter iff in A-Z or a-z); bytes 0x80 and above are not
valid single-byte UTF-8 and decode to U+FFFD, which is not a letter. -/
def isLetterByte (b : Byte) : Bool :=
  (65 ≤ b && b ≤ 90) || (97 ≤ b && b ≤ 122)

/-- The Go slice expression `s[a:b]` on a byte slice: the elements at
indices `[a, b)`, a runtime panic (modelled as an error) when the bounds
do not satisfy `a ≤ b ≤ len(s)`. -/
def goSlice (s : List Byte) (a b : Nat) : Except String (List Byte) :=
  if a ≤ b ∧ b ≤ s.length then .ok ((s.drop a).take (b - a))
  else .error "slice bounds out of range"

/-- One entry of `getCigarOperationMap` (sam.go): given the CIGAR operation
type string, the query cursor, the reference cursor, the operation length
and the full query sequence, produce the new cursors and the emitted
extension.  The map contains exactly the keys "M" "I" "D" "N" "S" "H" "P"
"=" "X"; indexing the Go map at any other key gives a nil function and the
call panics, modelled as an error. -/
def applyCigarOp (operation : String) (qstart : Nat) (rstart : Int)
    (length : Nat) (seq : List Byte) : Except String (Nat × Int × List Byte) :=
  match operation with
  | "M" => (goSlice seq qstart (qstart + length)).map
      (fun ext => (qstart + length, rstart + (length : Int), ext))
  | "I" => .ok (qstart + length, rstart, [])
  | "D" => .ok (qstart, rstart + (length : Int), List.replicate length 45)
  | "N" => .ok (qstart, rstart + (length : Int), List.replicate length 45)
  | "S" => .ok (qstart + length, rstart, [])
  | "H" => .ok (qstart, rstart, [])
  | "P" => .ok (qstart, rstart, [])
  | "=" => (goSlice seq qstart (qstart + length)).map
      (fun ext => (qstart + length, rstart + (length : Int), ext))
  | "X" => (goSlice seq qstart (qstart + length)).map
      (fun ext => (qstart + length, rstart + (length : Int), ext))
  | _ => .error "unrecognized CIGAR operation"

/-- A SAM alignment record, the fields of `biogosam.Record` this core
reads: query name, 0-based reference start (negative means unmapped), the
expanded query sequence, the CIGAR as (operation string, length) pairs,
and the flag bitfield. -/
structure SamRecord where
  name : String
  pos : Int
  seq : List Byte
  cigar : List (String × Nat)
  flags : Nat
deriving Repr, DecidableEq

/-- The CIGAR fold inside `getOneLine` (sam.go): walk the operations,
applying `applyCigarOp` and appending each emitted extension to the
accumulated array. -/
def getOneLineLoop (seq : List Byte) (ops : List (String × Nat))
    (qstart : Nat) (rstart : Int) (acc : List Byte) : Except String (List Byte) :=
  match ops with
  | [] => .ok acc
  | (operation, size) :: rest => do
      let res ← applyCigarOp operation qstart rstart size seq
      getOneLineLoop seq rest res.1 res.2.1 (acc ++ res.2.2)

/-- `getOneLine` (sam.go): expand one record into a reference-length
byte array.  Rejects a negative POS with "unmapped read"; left-pads with
`*` (42) up to POS, folds the CIGAR operations, then right-pads with `*`
up to `refLen`.  When the built array is already longer than `refLen`
the Go code computes `make([]byte, negative)`, a runtime panic, modelled
as an error. -/
def getOneLine (samLine : SamRecord) (refLen : Nat) : Except String (List Byte) := do
  if samLine.pos < 0 then do
    Except.error "unmapped read"
  else do
    let newSeqArray ← getOneLineLoop samLine.seq samLine.cigar 0 samLine.pos
      (List.replicate samLine.pos.toNat 42)
    if refLen < newSeqArray.length then
      Except.error "makeslice: len out of range"
    else
      Except.ok (newSeqArray ++ List.replicate (refLen - newSeqArray.length) 42)

/-- `getSetFromSlice` (sam.go): the set of distinct byte values of a
slice.  The Go code builds a `map[byte]bool` and iterates it in an
unspecified order; this model keeps the first-occurrence order, and
every consumer below is proved against order-independent properties
(membership, distinct-value counts, maxima) only. -/
def getSetFromSlice (s : List Byte) : List Byte :=
  s.foldl (fun acc b => if b ∈ acc then acc else acc ++ [b]) []

/-- The maximum-finding loop at the end of `getNucFromSite` (sam.go):
`var m byte; for i, e := range ss { if i == 0 || e > m { m = e } }`.
On an empty list it returns the zero value of `byte`. -/
def maxLoop (ss : List Byte) : Byte :=
  match ss with
  | [] => 0
  | h :: t => t.foldl (fun m e => if e > m then e else m) h

/-- `getNucFromSite` (sam.go): flatten one alignment column.  Counts the
distinct alphabetic values; more than one gives an N (78), otherwise the
numerically largest distinct value is returned. -/
def getNucFromSite (s : List Byte) : Byte :=
  let ss := getSetFromSlice s
  let check := (ss.filter (fun e => isLetterByte e)).length
  if check > 1 then 78 else maxLoop ss

/-- `swapInNs` (sam.go): replace every `*` (42) with `N` (78). -/
def swapInNs (seq : List Byte) : List Byte :=
  seq.map (fun L => if L = 42 then 78 else L)

/-- The first loop of `swapInGapsNs` (sam.go), translated with an explicit
index: state is `(firstLetter flag, firstLetterIndx, lastLetterIndx)`;
every letter updates `lastLetterIndx`, and the first letter seen also
sets `firstLetterIndx` and clears the flag. -/
def letterBoundsLoop (lst : List Byte) (i : Nat) (st : Bool × Nat × Nat) :
    Bool × Nat × Nat :=
  match lst with
  | [] => st
  | L :: rest =>
      if isLetterByte L then
        letterBoundsLoop rest (i + 1) (false, (if st.1 then i else st.2.1), i)
      else
        letterBoundsLoop rest (i + 1) st

/-- The second loop of `swapInGapsNs` (sam.go): three successive in-place
conditional rewrites of position `i` (strictly before the first letter:
`*` ↦ `-`; strictly between first and last letter: `*` ↦ `N`; strictly
after the last letter: `*` ↦ `-`). -/
def swapLoop (fIdx lIdx : Nat) (lst : List Byte) (i : Nat) : List Byte :=
  match lst with
  | [] => []
  | L :: rest =>
      let a := if i < fIdx ∧ L = 42 then 45 else L
      let b := if fIdx < i ∧ i < lIdx ∧ a = 42 then 78 else a
      let c := if lIdx < i ∧ b = 42 then 45 else b
      c :: swapLoop fIdx lIdx rest (i + 1)

/-- `swapInGapsNs` (sam.go): find the first and last letter positions
(both 0 when no letter exists, the flag then still true) and rewrite the
`*` placeholders as internal Ns or external gaps. -/
def swapInGapsNs (seq : List Byte) : List Byte :=
  let st := letterBoundsLoop seq 0 (true, 0, 0)
  swapLoop st.2.1 st.2.2 seq 0

/-- The record-accumulation loop of `groupSamRecords` (sam.go), after the
first record has seeded the group: a record whose name differs from
`previous` finishes the current group and starts a new one; otherwise it
extends the current group.  At end of stream the in-progress group is
emitted. -/
def groupLoop (recs : List SamRecord) (cur : List SamRecord) (previous : String) :
    List (List SamRecord) :=
  match recs with
  | [] => [cur]
  | r :: rest =>
      if r.name ≠ previous then cur :: groupLoop rest [r] r.name
      else groupLoop rest (cur ++ [r]) r.name

/-- `groupSamRecords` (sam.go), as a pure function from the stream of
records read from the SAM file to the list of emitted blocks.  Note that
on an empty stream the loop body never runs and the final
`chnl <- samLineGroup` still emits the (empty) in-progress group. -/
def groupSamRecords (recs : List SamRecord) : List (List SamRecord) :=
  match recs with
  | [] => [[]]
  | r :: rest => groupLoop rest [r] r.name

/-- `insOccurrence` (indels.go): one observed insertion. -/
structure insOccurrence where
  query : String
  start : Int
  seq : List Byte
deriving Repr, DecidableEq

/-- `delOccurrence` (indels.go): one observed deletion. -/
structure delOccurrence where
  query : String
  start : Int
  length : Nat
deriving Repr, DecidableEq

/-- Modelled from the spec: `getCigarOperationMapNoInsertions` is called
by `getIndels` (indels.go) but its definition is not among the provided
sources.  Spec §4.6 says the extractor "walks the operator sequence
maintaining query/reference cursors exactly as in §4.1", so this map
applies the §4.1 consumption rules to the cursors (M/=/X consume both,
I/S consume the query only, D/N consume the reference only, H/P consume
neither); only the cursors are consumed by `getIndels` (the emission is
discarded there), so no emission is modelled.  An unknown key is a nil
map entry whose call panics, modelled as an error. -/
def applyCigarOpNoInsertions (operation : String) (qstart : Nat) (rstart : Int)
    (length : Nat) (seq : List Byte) : Except String (Nat × Int) :=
  match operation with
  | "M" => .ok (qstart + length, rstart + (length : Int))
  | "I" => .ok (qstart + length, rstart)
  | "D" => .ok (qstart, rstart + (length : Int))
  | "N" => .ok (qstart, rstart + (length : Int))
  | "S" => .ok (qstart + length, rstart)
  | "H" => .ok (qstart, rstart)
  | "P" => .ok (qstart, rstart)
  | "=" => .ok (qstart + length, rstart + (length : Int))
  | "X" => .ok (qstart + length, rstart + (length : Int))
  | _ => .error "unrecognized CIGAR operation"

/-- The CIGAR walk of `getIndels` (indels.go) for one record: an "I"
operation sends `{query, rstart, string(SEQ[qstart:qstart+size])}` to the
insertion channel (the Go slice panics when out of range, modelled as an
error), a "D" operation sends `{query, rstart, size}` to the deletion
channel, and the cursors advance by `getCigarOperationMapNoInsertions`. -/
def getIndelsLoop (qname : String) (seq : List Byte) (ops : List (String × Nat))
    (qstart : Nat) (rstart : Int) (accI : List insOccurrence)
    (accD : List delOccurrence) :
    Except String (List insOccurrence × List delOccurrence) :=
  match ops with
  | [] => .ok (accI, accD)
  | (operation, size) :: rest => do
      let accI ←
        if operation = "I" then
          (goSlice seq qstart (qstart + size)).map
            (fun s => accI ++ [⟨qname, rstart, s⟩])
        else .ok accI
      let accD := if operation = "D" then accD ++ [⟨qname, rstart, size⟩] else accD
      let cur ← applyCigarOpNoInsertions operation qstart rstart size seq
      getIndelsLoop qname seq rest cur.1 cur.2 accI accD

/-- The body of `getIndels` (indels.go) for one record pulled from the
channel.  A negative POS sends "unmapped read" on the error channel but —
unlike `getOneLine` — the code then falls through and keeps processing
the record, so its occurrences are still emitted; the sent errors are
returned here as a list alongside the occurrences.  A panic (unknown
operation, out-of-range slice) is the `Except.error` case. -/
def getIndels (samLine : SamRecord) :
    Except String (List String × List insOccurrence × List delOccurrence) := do
  let errs := if samLine.pos < 0 then ["unmapped read"] else []
  let res ← getIndelsLoop samLine.name samLine.seq samLine.cigar 0 samLine.pos [] []
  .ok (errs, res.1, res.2)

/-- `writeInsMap` (indels.go) as the list of lines it writes: the header,
then for each primary key in ascending order (`sort.Ints`) and each inner
entry of the Go map at that key, a row `Itoa(k+1) \t seq \t join(names,"|")`
unless the name list is shorter than the threshold (`continue`).  The Go
`map[int]map[string][]string` is modelled as an association list with
distinct primary keys; the inner map's unspecified iteration order is the
list order of the inner association list. -/
def writeInsMapLines (insmap : List (Int × List (String × List String)))
    (threshold : Int) : List String :=
  let keys := List.insertionSort (fun a b => a ≤ b) (insmap.map Prod.fst)
  "ref_start\tinsertion\tsamples" ::
    keys.flatMap (fun k =>
      ((List.lookup k insmap).getD []).flatMap (fun v =>
        if (v.2.length : Int) < threshold then []
        else [toString (k + 1) ++ "\t" ++ v.1 ++ "\t" ++ String.intercalate "|" v.2]))

/-- `writeDelMap` (indels.go) as the list of lines it writes: the header,
then for each primary key in ascending order and each inner entry, a row
`Itoa(k+1) \t Itoa(length) \t join(names,"|")` unless the name list is
shorter than the threshold. -/
def writeDelMapLines (delmap : List (Int × List (Int × List String)))
    (threshold : Int) : List String :=
  let keys := List.insertionSort (fun a b => a ≤ b) (delmap.map Prod.fst)
  "ref_start\tlength\tsamples" ::
    keys.flatMap (fun k =>
      ((List.lookup k delmap).getD []).flatMap (fun v =>
        if (v.2.length : Int) < threshold then []
        else [toString (k + 1) ++ "\t" ++ toString v.1 ++ "\t" ++ String.intercalate "|" v.2]))

/-! ### Specification-side helper definitions

These follow the wording of the spec's claims (cursor consumption classes,
emission description, indel walk); the theorems below relate the code
translations above to them. -/

/-- Operation kinds that consume from the query cursor (§4.1). -/
def opAdvancesQuery (op : String) : Bool :=
  op = "M" || op = "I" || op = "S" || op = "=" || op = "X"

/-- Operation kinds that consume from the reference cursor (§4.1). -/
def opAdvancesRef (op : String) : Bool :=
  op = "M" || op = "D" || op = "N" || op = "=" || op = "X"

/-- The nine recognized operation kinds. -/
def recognizedOp (op : String) : Bool :=
  op = "M" || op = "I" || op = "D" || op = "N" || op = "S" ||
  op = "H" || op = "P" || op = "=" || op = "X"

/-- Total query consumption of an operator sequence. -/
def queryConsumed (ops : List (String × Nat)) : Nat :=
  (ops.map (fun p => if opAdvancesQuery p.1 then p.2 else 0)).sum

/-- Total reference consumption of an operator sequence. -/
def refConsumed (ops : List (String × Nat)) : Nat :=
  (ops.map (fun p => if opAdvancesRef p.1 then p.2 else 0)).sum

/-- The interpreter emissions of an operator sequence, concatenated in
order, as the spec describes them: M/=/X emit the query slice at the
query cursor, D/N emit `length` gap bytes, the rest emit nothing. -/
def interpEmissions (seq : List Byte) (q : Nat) : List (String × Nat) → List Byte
  | [] => []
  | (op, n) :: rest =>
      (if op = "M" || op = "=" || op = "X" then (seq.drop q).take n
       else if op = "D" || op = "N" then List.replicate n 45 else []) ++
      interpEmissions seq (if opAdvancesQuery op then q + n else q) rest

/-- The indel walk as the spec describes it: cursors advance by the §4.1
consumption rules; an Insertion of length `n` at query cursor `q` and
reference cursor `r` contributes `(name, r, seq[q..q+n))`; a Deletion of
length `n` at reference cursor `r` contributes `(name, r, n)`; no other
kind contributes. -/
def specIndelWalk (qname : String) (seq : List Byte) (q : Nat) (r : Int) :
    List (String × Nat) → List insOccurrence × List delOccurrence
  | [] => ([], [])
  | (op, n) :: rest =>
      let rec2 := specIndelWalk qname seq
        (if opAdvancesQuery op then q + n else q)
        (if opAdvancesRef op then r + (n : Int) else r) rest
      ((if op = "I" then ⟨qname, r, (seq.drop q).take n⟩ :: rec2.1 else rec2.1),
       (if op = "D" then ⟨qname, r, n⟩ :: rec2.2 else rec2.2))

/-- Position `f` holds a letter and every position strictly before it
does not (the spec's "first letter at index f"). -/
def FirstLetterAt (lst : List Byte) (f : Nat) : Prop :=
  lst[f]?.any isLetterByte = true ∧
  ∀ j, j < f → lst[j]?.all (fun x => !isLetterByte x) = true

/-- Position `l` holds a letter and every position strictly after it
does not (the spec's "last letter at index l"). -/
def LastLetterAt (lst : List Byte) (l : Nat) : Prop :=
  lst[l]?.any isLetterByte = true ∧
  ∀ j, j < lst.length → l < j → lst[j]?.all (fun x => !isLetterByte x) = true

/-! ### Helper lemmas -/

lemma mem_getSetAux (s : List Byte) (acc : List Byte) (x : Byte) :
    x ∈ s.foldl (fun a b => if b ∈ a then a else a ++ [b]) acc ↔ x ∈ acc ∨ x ∈ s := by
  induction s generalizing acc with
  | nil => simp
  | cons hd t ih =>
    simp only [List.foldl_cons]
    by_cases hh : hd ∈ acc
    · rw [if_pos hh, ih]
      constructor
      · rintro (h | h)
        · exact Or.inl h
        · exact Or.inr (List.mem_cons_of_mem _ h)
      · rintro (h | h)
        · exact Or.inl h
        · rcases List.mem_cons.mp h with h | h
          · exact Or.inl (h ▸ hh)
          · exact Or.inr h
    · rw [if_neg hh, ih]
      simp only [List.mem_append, List.mem_singleton, List.mem_cons]
      tauto

lemma nodup_getSetAux (s : List Byte) (acc : List Byte) (hacc : acc.Nodup) :
    (s.foldl (fun a b => if b ∈ a then a else a ++ [b]) acc).Nodup := by
  induction s generalizing acc with
  | nil => exact hacc
  | cons hd t ih =>
    simp only [List.foldl_cons]
    by_cases hh : hd ∈ acc
    · rw [if_pos hh]; exact ih acc hacc
    · rw [if_neg hh]
      refine ih _ (List.nodup_append.mpr ⟨hacc, List.nodup_singleton hd, ?_⟩)
      intro a ha hmem
      rw [List.mem_singleton] at hmem
      exact hh (hmem ▸ ha)

lemma mem_getSetFromSlice (s : List Byte) (x : Byte) :
    x ∈ getSetFromSlice s ↔ x ∈ s := by
  unfold getSetFromSlice
  rw [mem_getSetAux]
  simp

lemma nodup_getSetFromSlice (s : List Byte) : (getSetFromSlice s).Nodup :=
  nodup_getSetAux s [] List.nodup_nil

lemma card_filter_toFinset (s : List Byte) (p : Byte → Bool) :
    (s.toFinset.filter (fun b => p b = true)).card = ((getSetFromSlice s).filter p).length := by
  rw [← List.toFinset_card_of_nodup ((nodup_getSetFromSlice s).filter p)]
  rw [List.toFinset_filter]
  congr 1
  ext a
  simp [mem_getSetFromSlice]

lemma foldl_max_mem (t : List Byte) (m : Byte) :
    t.foldl (fun m e => if e > m then e else m) m = m ∨
      t.foldl (fun m e => if e > m then e else m) m ∈ t := by
  induction t generalizing m with
  | nil => exact Or.inl rfl
  | cons hd t ih =>
    simp only [List.foldl_cons]
    rcases ih (if hd > m then hd else m) with h | h
    · by_cases hc : hd > m
      · right; rw [h, if_pos hc]; exact List.mem_cons_self _ _
      · left; rw [h, if_neg hc]
    · right; exact List.mem_cons_of_mem _ h

lemma le_foldl_max (t : List Byte) (m : Byte) :
    m ≤ t.foldl (fun m e => if e > m then e else m) m := by
  induction t generalizing m with
  | nil => exact le_refl m
  | cons hd t ih =>
    simp only [List.foldl_cons]
    refine le_trans ?_ (ih (if hd > m then hd else m))
    by_cases hc : hd > m
    · rw [if_pos hc]; exact le_of_lt hc
    · rw [if_neg hc]

lemma mem_le_foldl_max (t : List Byte) (m : Byte) (x : Byte) (hx : x ∈ t) :
    x ≤ t.foldl (fun m e => if e > m then e else m) m := by
  induction t generalizing m with
  | nil => cases hx
  | cons hd t ih =>
    simp only [List.foldl_cons]
    rcases List.mem_cons.mp hx with h | h
    · subst h
      refine le_trans ?_ (le_foldl_max t _)
      by_cases hc : x > m
      · rw [if_pos hc]
      · rw [if_neg hc]; exact le_of_not_lt hc
    · exact ih _ h

lemma maxLoop_mem (ss : List Byte) (h : ss ≠ []) : maxLoop ss ∈ ss := by
  cases ss with
  | nil => exact absurd rfl h
  | cons hd t =>
    simp only [maxLoop]
    rcases foldl_max_mem t hd with h | h
    · rw [h]; exact List.mem_cons_self _ _
    · exact List.mem_cons_of_mem _ h

lemma le_maxLoop (ss : List Byte) (x : Byte) (hx : x ∈ ss) : x ≤ maxLoop ss := by
  cases ss with
  | nil => cases hx
  | cons hd t =>
    simp only [maxLoop]
    rcases List.mem_cons.mp hx with h | h
    · subst h; exact le_foldl_max t x
    · exact mem_le_foldl_max t hd x h

lemma firstLetterAt_cons_letter (L : Byte) (rest : List Byte) (f : Nat)
    (hf : FirstLetterAt (L :: rest) f) (hL : isLetterByte L = true) : f = 0 := by
  cases f with
  | zero => rfl
  | succ f' =>
    have h := hf.2 0 (Nat.succ_pos f')
    rw [List.getElem?_cons_zero] at h
    simp [Option.all, hL] at h

lemma firstLetterAt_cons_notletter (L : Byte) (rest : List Byte) (f : Nat)
    (hf : FirstLetterAt (L :: rest) f) (hL : isLetterByte L = false) :
    ∃ f', f = f' + 1 ∧ FirstLetterAt rest f' := by
  cases f with
  | zero =>
    exfalso
    have h := hf.1
    rw [List.getElem?_cons_zero] at h
    simp [Option.any, hL] at h
  | succ f' =>
    refine ⟨f', rfl, ?_, ?_⟩
    · have h := hf.1; rwa [List.getElem?_cons_succ] at h
    · intro j hj
      have h := hf.2 (j + 1) (Nat.succ_lt_succ hj)
      rwa [List.getElem?_cons_succ] at h

lemma lastLetterAt_cons_succ (L : Byte) (rest : List Byte) (l' : Nat)
    (hl : LastLetterAt (L :: rest) (l' + 1)) : LastLetterAt rest l' := by
  refine ⟨?_, ?_⟩
  · have h := hl.1; rwa [List.getElem?_cons_succ] at h
  · intro j hj hlj
    have h := hl.2 (j + 1) (by simp; omega) (Nat.succ_lt_succ hlj)
    rwa [List.getElem?_cons_succ] at h

lemma lastLetterAt_cons_of_any (L : Byte) (rest : List Byte) (l : Nat)
    (hl : LastLetterAt (L :: rest) l) (hrest : rest.any isLetterByte = true) :
    ∃ l', l = l' + 1 ∧ LastLetterAt rest l' := by
  obtain ⟨x, hx, hlx⟩ := List.any_eq_true.mp hrest
  obtain ⟨j, hj, hjx⟩ := List.getElem_of_mem hx
  cases l with
  | zero =>
    exfalso
    have h := hl.2 (j + 1) (by simp; omega) (Nat.succ_pos j)
    rw [List.getElem?_cons_succ, List.getElem?_eq_getElem hj] at h
    simp [Option.all, hjx ▸ hlx] at h
  | succ l' => exact ⟨l', rfl, lastLetterAt_cons_succ L rest l' hl⟩

lemma lastLetterAt_cons_of_none (L : Byte) (rest : List Byte) (l : Nat)
    (hl : LastLetterAt (L :: rest) l) (hrest : rest.any isLetterByte = false) :
    l = 0 := by
  cases l with
  | zero => rfl
  | succ l' =>
    exfalso
    have h1 := hl.1
    rw [List.getElem?_cons_succ] at h1
    cases hx : rest[l']? with
    | none => rw [hx] at h1; simp [Option.any] at h1
    | some x =>
      rw [hx] at h1
      simp only [Option.any] at h1
      have hmem : x ∈ rest := List.getElem?_mem hx
      have := List.any_eq_true.mpr ⟨x, hmem, h1⟩
      rw [hrest] at this
      cases this

lemma letterBoundsLoop_no_letter (lst : List Byte) (h : lst.any isLetterByte = false) :
    ∀ i st, letterBoundsLoop lst i st = st := by
  induction lst with
  | nil => intro i st; rfl
  | cons L rest ih =>
    intro i st
    simp only [List.any_cons, Bool.or_eq_false_iff] at h
    simp only [letterBoundsLoop, h.1, Bool.false_eq_true, if_false]
    exact ih h.2 (i + 1) st

lemma letterBoundsLoop_false (lst : List Byte) (l : Nat) (hl : LastLetterAt lst l) :
    ∀ i fI b, letterBoundsLoop lst i (false, fI, b) = (false, fI, i + l) := by
  induction lst generalizing l with
  | nil =>
    intro i fI b
    exfalso
    have h := hl.1
    simp [Option.any] at h
  | cons L rest ih =>
    intro i fI b
    by_cases hrest : rest.any isLetterByte = true
    · obtain ⟨l', rfl, hl'⟩ := lastLetterAt_cons_of_any L rest l hl hrest
      by_cases hL : isLetterByte L
      · simp only [letterBoundsLoop, hL, if_true, Bool.false_eq_true, if_false]
        rw [ih l' hl' (i + 1) fI i]
        have harith : i + 1 + l' = i + (l' + 1) := by omega
        rw [harith]
      · simp only [letterBoundsLoop, hL, Bool.false_eq_true, if_false]
        rw [ih l' hl' (i + 1) fI b]
        have harith : i + 1 + l' = i + (l' + 1) := by omega
        rw [harith]
    · have hrf : rest.any isLetterByte = false := by
        cases hv : rest.any isLetterByte
        · rfl
        · exact absurd hv hrest
      have hl0 : l = 0 := lastLetterAt_cons_of_none L rest l hl hrf
      subst hl0
      by_cases hL : isLetterByte L
      · simp only [letterBoundsLoop, hL, if_true, Bool.false_eq_true, if_false]
        rw [letterBoundsLoop_no_letter rest hrf (i + 1) _]
        simp
      · exfalso
        have h := hl.1
        rw [List.getElem?_cons_zero] at h
        simp only [Option.any] at h
        rw [h] at hL
        exact hL rfl

lemma letterBoundsLoop_true (lst : List Byte) (f l : Nat)
    (hf : FirstLetterAt lst f) (hl : LastLetterAt lst l) :
    ∀ i a b, letterBoundsLoop lst i (true, a, b) = (false, i + f, i + l) := by
  induction lst generalizing f l with
  | nil =>
    intro i a b
    exfalso
    have h := hf.1
    simp [Option.any] at h
  | cons L rest ih =>
    intro i a b
    by_cases hL : isLetterByte L
    · have hf0 : f = 0 := firstLetterAt_cons_letter L rest f hf hL
      subst hf0
      simp only [letterBoundsLoop, hL, if_true]
      by_cases hrest : rest.any isLetterByte = true
      · obtain ⟨l', rfl, hl'⟩ := lastLetterAt_cons_of_any L rest l hl hrest
        rw [letterBoundsLoop_false rest l' hl' (i + 1) i i]
        have harith : i + 1 + l' = i + (l' + 1) := by omega
        rw [harith]
        simp
      · have hrf : rest.any isLetterByte = false := by
          cases hv : rest.any isLetterByte
          · rfl
          · exact absurd hv hrest
        have hl0 : l = 0 := lastLetterAt_cons_of_none L rest l hl hrf
        subst hl0
        rw [letterBoundsLoop_no_letter rest hrf (i + 1) _]
        simp
    · have hLf : isLetterByte L = false := by
        cases hv : isLetterByte L
        · rfl
        · exact absurd hv hL
      obtain ⟨f', rfl, hf'⟩ := firstLetterAt_cons_notletter L rest f hf hLf
      cases l with
      | zero =>
        exfalso
        have h := hl.1
        rw [List.getElem?_cons_zero] at h
        simp [Option.any, hLf] at h
      | succ l' =>
        have hl' : LastLetterAt rest l' := lastLetterAt_cons_succ L rest l' hl
        simp only [letterBoundsLoop, hLf, Bool.false_eq_true, if_false]
        rw [ih f' l' hf' hl' (i + 1) a b]
        have ha1 : i + 1 + f' = i + (f' + 1) := by omega
        have ha2 : i + 1 + l' = i + (l' + 1) := by omega
        rw [ha1, ha2]

lemma swapLoop_length (fIdx lIdx : Nat) (lst : List Byte) :
    ∀ i, (swapLoop fIdx lIdx lst i).length = lst.length := by
  induction lst with
  | nil => intro i; rfl
  | cons L rest ih =>
    intro i
    simp only [swapLoop, List.length_cons, ih (i + 1)]

lemma swapLoop_getElem (fIdx lIdx : Nat) (lst : List Byte) :
    ∀ i j, (swapLoop fIdx lIdx lst i)[j]? = (lst[j]?).map (fun L =>
      let a := if i + j < fIdx ∧ L = 42 then 45 else L
      let b := if fIdx < i + j ∧ i + j < lIdx ∧ a = 42 then 78 else a
      if lIdx < i + j ∧ b = 42 then 45 else b) := by
  induction lst with
  | nil => intro i j; simp [swapLoop]
  | cons L rest ih =>
    intro i j
    cases j with
    | zero => simp [swapLoop]
    | succ j' =>
      simp only [swapLoop, List.getElem?_cons_succ]
      rw [ih (i + 1) j']
      have harith : i + 1 + j' = i + (j' + 1) := by omega
      rw [harith]

/-! ### Claims -/

/-- C1: each CIGAR operator kind consumes cursors and emits bytes as the
spec states: M/=/X consume `length` from both cursors and emit the query
slice `S[q..q+n)`; I/S consume from the query cursor only and emit
nothing; D/N consume from the reference cursor only and emit `n` gap
bytes; H/P consume neither and emit nothing. -/
theorem opInterpreter_consumption (q : Nat) (r : Int) (n : Nat) (S : List Byte)
    (h : q + n ≤ S.length) :
    applyCigarOp "M" q r n S = .ok (q + n, r + (n : Int), (S.drop q).take n) ∧
    applyCigarOp "=" q r n S = .ok (q + n, r + (n : Int), (S.drop q).take n) ∧
    applyCigarOp "X" q r n S = .ok (q + n, r + (n : Int), (S.drop q).take n) ∧
    applyCigarOp "I" q r n S = .ok (q + n, r, []) ∧
    applyCigarOp "S" q r n S = .ok (q + n, r, []) ∧
    applyCigarOp "D" q r n S = .ok (q, r + (n : Int), List.replicate n 45) ∧
    applyCigarOp "N" q r n S = .ok (q, r + (n : Int), List.replicate n 45) ∧
    applyCigarOp "H" q r n S = .ok (q, r, []) ∧
    applyCigarOp "P" q r n S = .ok (q, r, []) := by
  refine ⟨?_, ?_, ?_, rfl, rfl, rfl, rfl, rfl, rfl⟩ <;>
    simp [applyCigarOp, goSlice, Nat.le_add_right, h, Except.map]

/-- Witness for C1 at q = 0, r = 0, n = 1, S = [65]. -/
theorem opInterpreter_consumption_witness :
    0 + 1 ≤ ([65] : List Byte).length ∧
    applyCigarOp "M" 0 0 1 [65] =
      .ok (0 + 1, (0 : Int) + (1 : Int), ((([65] : List Byte).drop 0).take 1)) :=
  ⟨by decide, (opInterpreter_consumption 0 0 1 [65] (by decide)).1⟩

/-- C3: on a non-empty alignment column, the consensus byte is N (78)
when the distinct values include more than one alphabetic letter, and
otherwise it is the numerically maximum value of the distinct set, which
coincides with the maximum value present in the column. -/
theorem consensus_site_policy (s : List Byte) (hne : s ≠ []) :
    (1 < (s.toFinset.filter (fun b => isLetterByte b = true)).card →
      getNucFromSite s = 78) ∧
    ((s.toFinset.filter (fun b => isLetterByte b = true)).card ≤ 1 →
      getNucFromSite s ∈ s ∧ ∀ x ∈ s, x ≤ getNucFromSite s) := by
  have hcard := card_filter_toFinset s (fun e => isLetterByte e)
  constructor
  · intro hgt
    rw [hcard] at hgt
    unfold getNucFromSite
    simp only [if_pos hgt]
  · intro hle
    rw [hcard] at hle
    have hnotgt : ¬ 1 < ((getSetFromSlice s).filter (fun e => isLetterByte e)).length :=
      not_lt.mpr hle
    unfold getNucFromSite
    simp only [if_neg hnotgt]
    have hssne : getSetFromSlice s ≠ [] := by
      intro hempty
      rcases List.exists_mem_of_ne_nil s hne with ⟨x, hx⟩
      have := (mem_getSetFromSlice s x).mpr hx
      rw [hempty] at this
      cases this
    constructor
    · exact (mem_getSetFromSlice s _).mp (maxLoop_mem _ hssne)
    · intro x hx
      exact le_maxLoop _ x ((mem_getSetFromSlice s x).mpr hx)

/-- Witness for C3 at the column [65, 67] (distinct letters A and C):
the consensus is N. -/
theorem consensus_site_policy_witness :
    ([65, 67] : List Byte) ≠ [] ∧ getNucFromSite [65, 67] = 78 :=
  ⟨by decide, (consensus_site_policy [65, 67] (by decide)).1 (by decide)⟩

/-- C6: `swapInNs` turns every `*` (42) into `N` (78); `swapInGapsNs`, on
a sequence whose first letter is at index `f` and last letter at index
`l`, turns a `*` strictly before `f` or strictly after `l` into `-` (45)
and a `*` strictly between `f` and `l` into `N` (78). -/
theorem boundary_normalization (seq : List Byte) (f l : Nat)
    (hf : FirstLetterAt seq f) (hl : LastLetterAt seq l) :
    (∀ i : Nat, seq[i]? = some 42 → (swapInNs seq)[i]? = some 78) ∧
    (∀ i : Nat, seq[i]? = some 42 → (i < f ∨ l < i) → (swapInGapsNs seq)[i]? = some 45) ∧
    (∀ i : Nat, seq[i]? = some 42 → f < i → i < l → (swapInGapsNs seq)[i]? = some 78) := by
  have hfl : f ≤ l := by
    by_contra hcon
    push_neg at hcon
    have h2 := hf.2 l hcon
    have h1 := hl.1
    cases hx : seq[l]? with
    | none => rw [hx] at h1; simp [Option.any] at h1
    | some x =>
      rw [hx] at h1 h2
      simp only [Option.any] at h1
      simp only [Option.all] at h2
      rw [h1] at h2
      cases h2
  have hswap : swapInGapsNs seq = swapLoop f l seq 0 := by
    unfold swapInGapsNs
    rw [letterBoundsLoop_true seq f l hf hl 0 0 0]
    simp only [Nat.zero_add]
  refine ⟨?_, ?_, ?_⟩
  · intro i hi
    unfold swapInNs
    rw [List.getElem?_map, hi]
    simp
  · intro i hi hio
    rw [hswap, swapLoop_getElem f l seq 0 i, hi]
    rcases hio with hlt | hgt
    · have hnfi : ¬ f < i := by omega
      have hnli : ¬ l < i := by omega
      simp [hlt, hnfi, hnli]
    · have hnif : ¬ i < f := by omega
      have hnil : ¬ i < l := by omega
      simp [hgt, hnif, hnil]
  · intro i hi h1 h2
    rw [hswap, swapLoop_getElem f l seq 0 i, hi]
    have hnif : ¬ i < f := by omega
    have hnli : ¬ l < i := by omega
    simp [h1, h2, hnif, hnli]

/-- Witness for C6 on "**AC**" ([42,42,65,67,42,42]), first letter at
index 2, last at index 3: the leading placeholder becomes a gap. -/
theorem boundary_normalization_witness :
    FirstLetterAt [42, 42, 65, 67, 42, 42] 2 ∧
    LastLetterAt [42, 42, 65, 67, 42, 42] 3 ∧
    (swapInGapsNs [42, 42, 65, 67, 42, 42])[0]? = some 45 := by
  have hf : FirstLetterAt [42, 42, 65, 67, 42, 42] 2 := by
    constructor
    · decide
    · decide
  have hl : LastLetterAt [42, 42, 65, 67, 42, 42] 3 := by
    constructor
    · decide
    · decide
  exact ⟨hf, hl,
    (boundary_normalization _ 2 3 hf hl).2.1 0 (by decide) (Or.inl (by decide))⟩

/-- C10: the two normalization passes preserve the length and leave every
position not holding `*` (42) unchanged. -/
theorem normalization_frame (seq : List Byte) :
    (swapInNs seq).length = seq.length ∧
    (swapInGapsNs seq).length = seq.length ∧
    (∀ (i : Nat) (x : Byte), seq[i]? = some x → x ≠ 42 → (swapInNs seq)[i]? = some x) ∧
    (∀ (i : Nat) (x : Byte), seq[i]? = some x → x ≠ 42 → (swapInGapsNs seq)[i]? = some x) := by
  refine ⟨?_, ?_, ?_, ?_⟩
  · simp [swapInNs]
  · unfold swapInGapsNs
    exact swapLoop_length _ _ seq 0
  · intro i x hx hne
    unfold swapInNs
    rw [List.getElem?_map, hx]
    simp [hne]
  · intro i x hx hne
    unfold swapInGapsNs
    rw [swapLoop_getElem _ _ seq 0 i, hx]
    simp [hne]

/-- Witness for C10 at the sequence [65] and position 0: the letter 65 is
unchanged by `swapInGapsNs`. -/
theorem normalization_frame_witness :
    ([65] : List Byte)[0]? = some 65 ∧ (65 : Byte) ≠ 42 ∧
    (swapInGapsNs [65])[0]? = some 65 :=
  ⟨by decide, by decide, (normalization_frame [65]).2.2.2 0 65 (by decide) (by decide)⟩

lemma groupLoop_spec (recs : List SamRecord) :
    ∀ (cur : List SamRecord) (previous : String), cur ≠ [] →
    (∀ x ∈ cur, x.name = previous) →
    (∀ b ∈ groupLoop recs cur previous, b ≠ []) ∧
    (∀ b ∈ groupLoop recs cur previous, ∀ x ∈ b, ∀ y ∈ b, x.name = y.name) ∧
    (groupLoop recs cur previous).flatten = cur ++ recs ∧
    (∃ b bs, groupLoop recs cur previous = b :: bs ∧ ∀ x ∈ b, x.name = previous) ∧
    (groupLoop recs cur previous).Chain'
      (fun b c => ∀ x ∈ b, ∀ y ∈ c, x.name ≠ y.name) := by
  induction recs with
  | nil =>
    intro cur previous hcur hname
    refine ⟨?_, ?_, ?_, ?_, ?_⟩
    · intro b hb
      rw [groupLoop, List.mem_singleton] at hb
      exact hb ▸ hcur
    · intro b hb x hx y hy
      rw [groupLoop, List.mem_singleton] at hb
      subst hb
      rw [hname x hx, hname y hy]
    · simp [groupLoop]
    · exact ⟨cur, [], rfl, hname⟩
    · exact List.chain'_singleton cur
  | cons r rest ih =>
    intro cur previous hcur hname
    by_cases hr : r.name = previous
    · have hloop : groupLoop (r :: rest) cur previous =
          groupLoop rest (cur ++ [r]) r.name := by
        simp [groupLoop, hr]
      have hname2 : ∀ x ∈ cur ++ [r], x.name = r.name := by
        intro x hx
        rcases List.mem_append.mp hx with h | h
        · rw [hname x h, hr]
        · rw [List.mem_singleton] at h
          rw [h]
      obtain ⟨h1, h2, h3, h4, h5⟩ := ih (cur ++ [r]) r.name (by simp) hname2
      refine ⟨hloop ▸ h1, hloop ▸ h2, ?_, ?_, hloop ▸ h5⟩
      · rw [hloop, h3]
        simp
      · obtain ⟨b, bs, heq, hb⟩ := h4
        exact ⟨b, bs, hloop ▸ heq, fun x hx => (hb x hx).trans hr⟩
    · have hloop : groupLoop (r :: rest) cur previous =
          cur :: groupLoop rest [r] r.name := by
        simp [groupLoop, hr]
      obtain ⟨h1, h2, h3, h4, h5⟩ := ih [r] r.name (by simp) (by simp)
      refine ⟨?_, ?_, ?_, ?_, ?_⟩
      · intro b hb
        rw [hloop, List.mem_cons] at hb
        rcases hb with hb | hb
        · exact hb ▸ hcur
        · exact h1 b hb
      · intro b hb x hx y hy
        rw [hloop, List.mem_cons] at hb
        rcases hb with hb | hb
        · subst hb
          rw [hname x hx, hname y hy]
        · exact h2 b hb x hx y hy
      · rw [hloop]
        simp only [List.flatten_cons, h3]
        simp
      · exact ⟨cur, groupLoop rest [r] r.name, hloop, hname⟩
      · rw [hloop]
        obtain ⟨b, bs, heq, hb⟩ := h4
        rw [heq]
        rw [heq] at h5
        refine List.chain'_cons.mpr ⟨?_, h5⟩
        intro x hx y hy
        rw [hname x hx, hb y hy]
        exact fun heq => hr heq.symm

/-- C5 counterexample: on the empty input stream the partitioner still
emits one block, and that block is empty, so "every emitted block is
non-empty" fails as stated. -/
theorem partitioner_empty_counterexample :
    ¬ ∀ b ∈ groupSamRecords ([] : List SamRecord), b ≠ [] := by
  intro hall
  exact hall [] (by simp [groupSamRecords]) rfl

/-- C5 (amended to non-empty input streams): every emitted block is
non-empty and single-named, the blocks concatenate back to the input
stream (a block is completed exactly when the name changes, the final
in-progress block is emitted at end of stream), and adjacent blocks
carry different names. -/
theorem partitioner_blocks (recs : List SamRecord) (h : recs ≠ []) :
    (∀ b ∈ groupSamRecords recs, b ≠ []) ∧
    (∀ b ∈ groupSamRecords recs, ∀ x ∈ b, ∀ y ∈ b, x.name = y.name) ∧
    (groupSamRecords recs).flatten = recs ∧
    (groupSamRecords recs).Chain'
      (fun b c => ∀ x ∈ b, ∀ y ∈ c, x.name ≠ y.name) := by
  match recs with
  | [] => exact absurd rfl h
  | r :: rest =>
    obtain ⟨h1, h2, h3, _, h5⟩ := groupLoop_spec rest [r] r.name (by simp) (by simp)
    exact ⟨h1, h2, by simpa using h3, h5⟩

/-- Witness for C5 on the stream [a-record, b-record]: both blocks are
non-empty. -/
theorem partitioner_blocks_witness :
    ([⟨"a", 0, [], [], 0⟩, ⟨"b", 1, [], [], 0⟩] : List SamRecord) ≠ [] ∧
    ∀ b ∈ groupSamRecords
      ([⟨"a", 0, [], [], 0⟩, ⟨"b", 1, [], [], 0⟩] : List SamRecord), b ≠ [] :=
  ⟨by decide, (partitioner_blocks _ (by decide)).1⟩

lemma recognizedOp_cases (op : String) (h : recognizedOp op = true) :
    op = "M" ∨ op = "I" ∨ op = "D" ∨ op = "N" ∨ op = "S" ∨
    op = "H" ∨ op = "P" ∨ op = "=" ∨ op = "X" := by
  simp only [recognizedOp, Bool.or_eq_true, decide_eq_true_eq] at h
  tauto

lemma queryConsumed_cons (op : String) (n : Nat) (rest : List (String × Nat)) :
    queryConsumed ((op, n) :: rest) =
      (if opAdvancesQuery op then n else 0) + queryConsumed rest := by
  simp [queryConsumed]

lemma refConsumed_cons (op : String) (n : Nat) (rest : List (String × Nat)) :
    refConsumed ((op, n) :: rest) =
      (if opAdvancesRef op then n else 0) + refConsumed rest := by
  simp [refConsumed]

lemma applyCigarOp_recognized (op : String) (hop : recognizedOp op = true)
    (q : Nat) (r : Int) (n : Nat) (seq : List Byte)
    (hqn : opAdvancesQuery op = true → q + n ≤ seq.length) :
    applyCigarOp op q r n seq = .ok
      ((if opAdvancesQuery op then q + n else q),
       (if opAdvancesRef op then r + (n : Int) else r),
       (if op = "M" || op = "=" || op = "X" then (seq.drop q).take n
        else if op = "D" || op = "N" then List.replicate n 45 else [])) := by
  rcases recognizedOp_cases op hop with h|h|h|h|h|h|h|h|h <;> subst h <;>
    first
      | (have hb := hqn rfl
         simp [applyCigarOp, goSlice, Nat.le_add_right, Except.map,
           opAdvancesQuery, opAdvancesRef, hb])
      | simp [applyCigarOp, goSlice, Except.map, opAdvancesQuery, opAdvancesRef]

lemma getOneLineLoop_spec (seq : List Byte) (ops : List (String × Nat)) :
    ∀ (q : Nat) (r : Int) (acc : List Byte),
    (∀ p ∈ ops, recognizedOp p.1 = true) →
    q + queryConsumed ops ≤ seq.length →
    getOneLineLoop seq ops q r acc = .ok (acc ++ interpEmissions seq q ops) := by
  induction ops with
  | nil =>
    intro q r acc _ _
    simp [getOneLineLoop, interpEmissions]
  | cons p rest ih =>
    obtain ⟨op, n⟩ := p
    intro q r acc hrec hq
    have hop := hrec (op, n) (List.mem_cons_self _ _)
    have hrest : ∀ p ∈ rest, recognizedOp p.1 = true :=
      fun p hp => hrec p (List.mem_cons_of_mem _ hp)
    rw [queryConsumed_cons] at hq
    have hqn : opAdvancesQuery op = true → q + n ≤ seq.length := by
      intro hadv
      rw [if_pos hadv] at hq
      omega
    have hq2 : (if opAdvancesQuery op then q + n else q) + queryConsumed rest ≤
        seq.length := by
      by_cases hadv : opAdvancesQuery op
      · rw [if_pos hadv]
        rw [if_pos hadv] at hq
        omega
      · rw [if_neg hadv]
        rw [if_neg hadv] at hq
        omega
    simp only [getOneLineLoop]
    rw [applyCigarOp_recognized op hop q r n seq hqn]
    show getOneLineLoop seq rest (if opAdvancesQuery op then q + n else q)
      (if opAdvancesRef op then r + (n : Int) else r)
      (acc ++ (if op = "M" || op = "=" || op = "X" then (seq.drop q).take n
        else if op = "D" || op = "N" then List.replicate n 45 else [])) = _
    rw [ih _ (if opAdvancesRef op then r + (n : Int) else r) _ hrest hq2]
    simp only [interpEmissions, List.append_assoc]

lemma interpEmissions_length (seq : List Byte) (ops : List (String × Nat)) :
    ∀ q : Nat, (∀ p ∈ ops, recognizedOp p.1 = true) →
    q + queryConsumed ops ≤ seq.length →
    (interpEmissions seq q ops).length = refConsumed ops := by
  induction ops with
  | nil =>
    intro q _ _
    simp [interpEmissions, refConsumed]
  | cons p rest ih =>
    obtain ⟨op, n⟩ := p
    intro q hrec hq
    have hop := hrec (op, n) (List.mem_cons_self _ _)
    have hrest : ∀ p ∈ rest, recognizedOp p.1 = true :=
      fun p hp => hrec p (List.mem_cons_of_mem _ hp)
    rw [queryConsumed_cons] at hq
    rcases recognizedOp_cases op hop with h|h|h|h|h|h|h|h|h <;> subst h
    · have hq' : q + n + queryConsumed rest ≤ seq.length := by
        simp [opAdvancesQuery] at hq
        omega
      have hih := ih (q + n) hrest (by omega)
      simp [interpEmissions, refConsumed_cons, opAdvancesQuery, opAdvancesRef, hih]
      omega
    · have hq' : q + n + queryConsumed rest ≤ seq.length := by
        simp [opAdvancesQuery] at hq
        omega
      have hih := ih (q + n) hrest (by omega)
      simp [interpEmissions, refConsumed_cons, opAdvancesQuery, opAdvancesRef, hih]
    · have hq' : q + queryConsumed rest ≤ seq.length := by
        simp [opAdvancesQuery] at hq
        omega
      have hih := ih q hrest (by omega)
      simp [interpEmissions, refConsumed_cons, opAdvancesQuery, opAdvancesRef, hih]
    · have hq' : q + queryConsumed rest ≤ seq.length := by
        simp [opAdvancesQuery] at hq
        omega
      have hih := ih q hrest (by omega)
      simp [interpEmissions, refConsumed_cons, opAdvancesQuery, opAdvancesRef, hih]
    · have hq' : q + n + queryConsumed rest ≤ seq.length := by
        simp [opAdvancesQuery] at hq
        omega
      have hih := ih (q + n) hrest (by omega)
      simp [interpEmissions, refConsumed_cons, opAdvancesQuery, opAdvancesRef, hih]
    · have hq' : q + queryConsumed rest ≤ seq.length := by
        simp [opAdvancesQuery] at hq
        omega
      have hih := ih q hrest (by omega)
      simp [interpEmissions, refConsumed_cons, opAdvancesQuery, opAdvancesRef, hih]
    · have hq' : q + queryConsumed rest ≤ seq.length := by
        simp [opAdvancesQuery] at hq
        omega
      have hih := ih q hrest (by omega)
      simp [interpEmissions, refConsumed_cons, opAdvancesQuery, opAdvancesRef, hih]
    · have hq' : q + n + queryConsumed rest ≤ seq.length := by
        simp [opAdvancesQuery] at hq
        omega
      have hih := ih (q + n) hrest (by omega)
      simp [interpEmissions, refConsumed_cons, opAdvancesQuery, opAdvancesRef, hih]
      omega
    · have hq' : q + n + queryConsumed rest ≤ seq.length := by
        simp [opAdvancesQuery] at hq
        omega
      have hih := ih (q + n) hrest (by omega)
      simp [interpEmissions, refConsumed_cons, opAdvancesQuery, opAdvancesRef, hih]
      omega

lemma except_bind_ok {α β : Type} (a : α) (f : α → Except String β) :
    (do
      let x ← Except.ok a
      f x : Except String β) = f a := rfl

/-- C2 (amended): for a record with non-negative start whose operator
kinds are all recognized, whose query-consuming operators stay within the
query sequence, and whose reference extent fits in `L`, expansion
succeeds and returns `referenceStart` placeholder bytes, then the
concatenated interpreter emissions in order, then placeholder padding up
to length exactly `L`; and any successful expansion has length `L`. -/
theorem record_expansion (r : SamRecord) (L : Nat)
    (hpos : 0 ≤ r.pos)
    (hrec : ∀ p ∈ r.cigar, recognizedOp p.1 = true)
    (hq : queryConsumed r.cigar ≤ r.seq.length)
    (hL : r.pos.toNat + refConsumed r.cigar ≤ L) :
    getOneLine r L = .ok (List.replicate r.pos.toNat 42 ++
      interpEmissions r.seq 0 r.cigar ++
      List.replicate (L - (r.pos.toNat + refConsumed r.cigar)) 42) ∧
    ∀ out, getOneLine r L = .ok out → out.length = L := by
  have hloop := getOneLineLoop_spec r.seq r.cigar 0 r.pos
    (List.replicate r.pos.toNat 42) hrec (by simpa using hq)
  have hlen : (interpEmissions r.seq 0 r.cigar).length = refConsumed r.cigar :=
    interpEmissions_length r.seq r.cigar 0 hrec (by simpa using hq)
  have hnlt : ¬ r.pos < 0 := not_lt.mpr hpos
  have harrlen : (List.replicate r.pos.toNat 42 ++
      interpEmissions r.seq 0 r.cigar).length
      = r.pos.toNat + refConsumed r.cigar := by
    simp [hlen]
  have hcond : ¬ L < (List.replicate r.pos.toNat 42 ++
      interpEmissions r.seq 0 r.cigar).length := by
    rw [harrlen]
    omega
  have hmain : getOneLine r L = .ok (List.replicate r.pos.toNat 42 ++
      interpEmissions r.seq 0 r.cigar ++
      List.replicate (L - (r.pos.toNat + refConsumed r.cigar)) 42) := by
    unfold getOneLine
    rw [if_neg hnlt, hloop]
    simp only [except_bind_ok]
    rw [if_neg hcond, harrlen, List.append_assoc]
  refine ⟨hmain, ?_⟩
  intro out hout
  rw [hmain] at hout
  simp only [Except.ok.injEq] at hout
  subst hout
  simp [hlen]
  omega

/-- C2 counterexample: a record whose expansion is longer than the given
reference length makes `getOneLine` fail (the Go code would compute
`make([]byte, negative)` and panic), so expansion does not succeed for
every reference length `L` as the claim states. -/
theorem record_expansion_counterexample :
    getOneLine ⟨"q", 0, [65], [("M", 1)], 0⟩ 0 =
      .error "makeslice: len out of range" ∧
    ¬ ∃ out, getOneLine ⟨"q", 0, [65], [("M", 1)], 0⟩ 0 = .ok out := by
  refine ⟨by rfl, ?_⟩
  rintro ⟨out, hout⟩
  rw [show getOneLine ⟨"q", 0, [65], [("M", 1)], 0⟩ 0 =
    .error "makeslice: len out of range" from rfl] at hout
  cases hout

/-- Witness for C2: a single M operator record at POS 2 against reference
length 8 expands to `**ACA***`. -/
theorem record_expansion_witness :
    getOneLine ⟨"q", 2, [65, 67, 65], [("M", 3)], 0⟩ 8 =
      .ok [42, 42, 65, 67, 65, 42, 42, 42] :=
  ((record_expansion ⟨"q", 2, [65, 67, 65], [("M", 3)], 0⟩ 8
    (by decide) (by decide) (by decide) (by decide)).1).trans (by rfl)

lemma applyCigarOpNoInsertions_recognized (op : String)
    (hop : recognizedOp op = true) (q : Nat) (r : Int) (n : Nat) (seq : List Byte) :
    applyCigarOpNoInsertions op q r n seq = .ok
      ((if opAdvancesQuery op then q + n else q),
       (if opAdvancesRef op then r + (n : Int) else r)) := by
  rcases recognizedOp_cases op hop with h|h|h|h|h|h|h|h|h <;> subst h <;>
    simp [applyCigarOpNoInsertions, opAdvancesQuery, opAdvancesRef]

lemma getIndelsLoop_cons_step (qname : String) (seq : List Byte) (op : String)
    (n : Nat) (rest : List (String × Nat)) (q : Nat) (r : Int)
    (accI : List insOccurrence) (accD : List delOccurrence)
    (hop : recognizedOp op = true)
    (hqn : opAdvancesQuery op = true → q + n ≤ seq.length) :
    getIndelsLoop qname seq ((op, n) :: rest) q r accI accD =
      getIndelsLoop qname seq rest (if opAdvancesQuery op then q + n else q)
        (if opAdvancesRef op then r + (n : Int) else r)
        (if op = "I" then accI ++ [⟨qname, r, (seq.drop q).take n⟩] else accI)
        (if op = "D" then accD ++ [⟨qname, r, n⟩] else accD) := by
  rcases recognizedOp_cases op hop with h|h|h|h|h|h|h|h|h <;> subst h <;>
    (first
      | (have hb := hqn rfl
         simp [getIndelsLoop, goSlice, applyCigarOpNoInsertions, Except.map,
           opAdvancesQuery, opAdvancesRef, Nat.le_add_right, hb])
      | simp [getIndelsLoop, goSlice, applyCigarOpNoInsertions, Except.map,
          opAdvancesQuery, opAdvancesRef]) <;>
    rfl

lemma getIndelsLoop_spec (qname : String) (seq : List Byte)
    (ops : List (String × Nat)) :
    ∀ (q : Nat) (r : Int) (accI : List insOccurrence) (accD : List delOccurrence),
    (∀ p ∈ ops, recognizedOp p.1 = true) →
    q + queryConsumed ops ≤ seq.length →
    getIndelsLoop qname seq ops q r accI accD =
      .ok (accI ++ (specIndelWalk qname seq q r ops).1,
           accD ++ (specIndelWalk qname seq q r ops).2) := by
  induction ops with
  | nil =>
    intro q r accI accD _ _
    simp [getIndelsLoop, specIndelWalk]
  | cons p rest ih =>
    obtain ⟨op, n⟩ := p
    intro q r accI accD hrec hq
    have hop := hrec (op, n) (List.mem_cons_self _ _)
    have hrest : ∀ p ∈ rest, recognizedOp p.1 = true :=
      fun p hp => hrec p (List.mem_cons_of_mem _ hp)
    rw [queryConsumed_cons] at hq
    have hqn : opAdvancesQuery op = true → q + n ≤ seq.length := by
      intro hadv
      rw [if_pos hadv] at hq
      omega
    have hq2 : (if opAdvancesQuery op then q + n else q) + queryConsumed rest ≤
        seq.length := by
      by_cases hadv : opAdvancesQuery op
      · rw [if_pos hadv]
        rw [if_pos hadv] at hq
        omega
      · rw [if_neg hadv]
        rw [if_neg hadv] at hq
        omega
    rw [getIndelsLoop_cons_step qname seq op n rest q r accI accD hop hqn]
    rw [ih _ _ _ _ hrest hq2]
    simp only [specIndelWalk]
    by_cases hI : op = "I" <;> by_cases hD : op = "D" <;>
      simp [hI, hD, List.append_assoc]

/-- C4: on a mapped record with recognized operators whose query
consumption fits the sequence, the indel extractor emits exactly the
insertion occurrences (name, reference cursor, query slice) for each I
operator and the deletion occurrences (name, reference cursor, length)
for each D operator, with cursors advanced by the §4.1 interpreter
rules; no other operator kind produces an occurrence, and no error is
sent. -/
theorem indel_extraction (rc : SamRecord)
    (hpos : 0 ≤ rc.pos)
    (hrec : ∀ p ∈ rc.cigar, recognizedOp p.1 = true)
    (hq : queryConsumed rc.cigar ≤ rc.seq.length) :
    getIndels rc = .ok ([],
      (specIndelWalk rc.name rc.seq 0 rc.pos rc.cigar).1,
      (specIndelWalk rc.name rc.seq 0 rc.pos rc.cigar).2) := by
  have hloop := getIndelsLoop_spec rc.name rc.seq rc.cigar 0 rc.pos [] []
    hrec (by simpa using hq)
  have hnlt : ¬ rc.pos < 0 := not_lt.mpr hpos
  unfold getIndels
  rw [if_neg hnlt, hloop]
  rfl

/-- Witness for C4, the spec's example: operators
[(M,5),(I,2),(M,3),(D,4),(M,1)] at reference position 10 yield exactly
one insertion occurrence at 15 (bases CC from the query) and one
deletion occurrence at 18 of length 4. -/
theorem indel_extraction_witness :
    getIndels ⟨"q1", 10, [65, 65, 65, 65, 65, 67, 67, 65, 65, 65, 65],
      [("M", 5), ("I", 2), ("M", 3), ("D", 4), ("M", 1)], 0⟩ =
      .ok ([], [⟨"q1", 15, [67, 67]⟩], [⟨"q1", 18, 4⟩]) :=
  (indel_extraction ⟨"q1", 10, [65, 65, 65, 65, 65, 67, 67, 65, 65, 65, 65],
    [("M", 5), ("I", 2), ("M", 3), ("D", 4), ("M", 1)], 0⟩
    (by decide) (by decide) (by decide)).trans (by rfl)

lemma applyCigarOp_unrecognized (op : String) (h : recognizedOp op = false)
    (q : Nat) (r : Int) (n : Nat) (seq : List Byte) :
    applyCigarOp op q r n seq = .error "unrecognized CIGAR operation" := by
  unfold applyCigarOp
  split <;> simp_all [recognizedOp]

lemma applyCigarOpNoInsertions_unrecognized (op : String)
    (h : recognizedOp op = false) (q : Nat) (r : Int) (n : Nat) (seq : List Byte) :
    applyCigarOpNoInsertions op q r n seq = .error "unrecognized CIGAR operation" := by
  unfold applyCigarOpNoInsertions
  split <;> simp_all [recognizedOp]

lemma getOneLineLoop_error_of_unrecognized (seq : List Byte)
    (ops : List (String × Nat)) :
    ∀ (q : Nat) (r : Int) (acc : List Byte),
    (∃ p ∈ ops, recognizedOp p.1 = false) →
    ∃ e, getOneLineLoop seq ops q r acc = .error e := by
  induction ops with
  | nil =>
    intro q r acc hbad
    obtain ⟨p, hp, -⟩ := hbad
    cases hp
  | cons p rest ih =>
    obtain ⟨op, n⟩ := p
    intro q r acc hbad
    by_cases hop : recognizedOp op = false
    · refine ⟨"unrecognized CIGAR operation", ?_⟩
      simp only [getOneLineLoop]
      rw [applyCigarOp_unrecognized op hop q r n seq]
      rfl
    · have hbad' : ∃ p ∈ rest, recognizedOp p.1 = false := by
        rcases hbad with ⟨p', hp', hbadp⟩
        rcases List.mem_cons.mp hp' with hh | hh
        · rw [hh] at hbadp
          exact absurd hbadp hop
        · exact ⟨p', hh, hbadp⟩
      simp only [getOneLineLoop]
      cases hres : applyCigarOp op q r n seq with
      | error e => exact ⟨e, rfl⟩
      | ok v =>
        obtain ⟨e, he⟩ := ih v.1 v.2.1 (acc ++ v.2.2) hbad'
        exact ⟨e, he⟩

lemma getIndelsLoop_error_of_unrecognized (qname : String) (seq : List Byte)
    (ops : List (String × Nat)) :
    ∀ (q : Nat) (r : Int) (accI : List insOccurrence) (accD : List delOccurrence),
    (∃ p ∈ ops, recognizedOp p.1 = false) →
    ∃ e, getIndelsLoop qname seq ops q r accI accD = .error e := by
  induction ops with
  | nil =>
    intro q r accI accD hbad
    obtain ⟨p, hp, -⟩ := hbad
    cases hp
  | cons p rest ih =>
    obtain ⟨op, n⟩ := p
    intro q r accI accD hbad
    by_cases hop : recognizedOp op = false
    · have hneI : ¬ op = "I" := by
        intro hh
        rw [hh] at hop
        cases hop
      have hneD : ¬ op = "D" := by
        intro hh
        rw [hh] at hop
        cases hop
      refine ⟨"unrecognized CIGAR operation", ?_⟩
      simp only [getIndelsLoop, if_neg hneI, if_neg hneD]
      rw [applyCigarOpNoInsertions_unrecognized op hop q r n seq]
      rfl
    · have hbad' : ∃ p ∈ rest, recognizedOp p.1 = false := by
        rcases hbad with ⟨p', hp', hbadp⟩
        rcases List.mem_cons.mp hp' with hh | hh
        · rw [hh] at hbadp
          exact absurd hbadp hop
        · exact ⟨p', hh, hbadp⟩
      simp only [getIndelsLoop]
      by_cases hI : op = "I"
      · subst hI
        rw [if_pos rfl]
        cases hgo : goSlice seq q (q + n) with
        | error e => exact ⟨e, rfl⟩
        | ok s =>
          obtain ⟨e, he⟩ := ih (q + n) r (accI ++ [⟨qname, r, s⟩])
            (if ("I" : String) = "D" then accD ++ [⟨qname, r, n⟩] else accD) hbad'
          exact ⟨e, he⟩
      · rw [if_neg hI]
        cases hcur : applyCigarOpNoInsertions op q r n seq with
        | error e => exact ⟨e, rfl⟩
        | ok cur =>
          obtain ⟨e, he⟩ := ih cur.1 cur.2 accI
            (if op = "D" then accD ++ [⟨qname, r, n⟩] else accD) hbad'
          exact ⟨e, he⟩

/-- C9: a record containing an operator kind outside the nine recognized
ones fails in both the expansion path (`getOneLine`) and the
indel-extraction path (`getIndels`); in Go the map lookup yields a nil
function whose call panics, modelled as the error case. -/
theorem unrecognized_operator_fails (rc : SamRecord) (L : Nat)
    (h : ∃ p ∈ rc.cigar, recognizedOp p.1 = false) :
    (∃ e, getOneLine rc L = .error e) ∧ (∃ e, getIndels rc = .error e) := by
  constructor
  · by_cases hpos : rc.pos < 0
    · refine ⟨"unmapped read", ?_⟩
      unfold getOneLine
      rw [if_pos hpos]
    · obtain ⟨e, he⟩ := getOneLineLoop_error_of_unrecognized rc.seq rc.cigar 0
        rc.pos (List.replicate rc.pos.toNat 42) h
      refine ⟨e, ?_⟩
      unfold getOneLine
      rw [if_neg hpos, he]
      rfl
  · obtain ⟨e, he⟩ := getIndelsLoop_error_of_unrecognized rc.name rc.seq rc.cigar
      0 rc.pos [] [] h
    refine ⟨e, ?_⟩
    unfold getIndels
    rw [he]
    rfl

/-- Witness for C9 at a record whose CIGAR contains the unrecognized
kind "B". -/
theorem unrecognized_operator_fails_witness :
    (∃ p ∈ ([("B", 1)] : List (String × Nat)), recognizedOp p.1 = false) ∧
    (∃ e, getOneLine ⟨"q", 0, [65], [("B", 1)], 0⟩ 1 = .error e) ∧
    (∃ e, getIndels ⟨"q", 0, [65], [("B", 1)], 0⟩ = .error e) := by
  have hbad : ∃ p ∈ ([("B", 1)] : List (String × Nat)), recognizedOp p.1 = false :=
    ⟨("B", 1), List.mem_singleton.mpr rfl, rfl⟩
  have h := unrecognized_operator_fails ⟨"q", 0, [65], [("B", 1)], 0⟩ 1 hbad
  exact ⟨hbad, h.1, h.2⟩

/-- C8: on a record with negative referenceStart, `getOneLine` rejects
with "unmapped read" and produces nothing, but `getIndels` — after
sending the same "unmapped read" error — keeps walking the record and
still emits its insertion occurrence, so the extractor does NOT reject
the record identically to the expander. -/
theorem unmapped_indel_divergence :
    getOneLine ⟨"q1", -1, [65], [("I", 1)], 0⟩ 1 = .error "unmapped read" ∧
    getIndels ⟨"q1", -1, [65], [("I", 1)], 0⟩ =
      .ok (["unmapped read"], [⟨"q1", -1, [65]⟩], []) :=
  ⟨rfl, rfl⟩

/-- The qualifying rows of the insertion report for one primary key, as
the spec describes them: the entries at that key whose sample list meets
the threshold, printed 1-based with samples joined by `|`. -/
def insRowsFor (insmap : List (Int × List (String × List String)))
    (threshold : Int) (k : Int) : List String :=
  (((List.lookup k insmap).getD []).filter
    (fun v => threshold ≤ (v.2.length : Int))).map
    (fun v => toString (k + 1) ++ "\t" ++ v.1 ++ "\t" ++ String.intercalate "|" v.2)

/-- The qualifying rows of the deletion report for one primary key. -/
def delRowsFor (delmap : List (Int × List (Int × List String)))
    (threshold : Int) (k : Int) : List String :=
  (((List.lookup k delmap).getD []).filter
    (fun v => threshold ≤ (v.2.length : Int))).map
    (fun v => toString (k + 1) ++ "\t" ++ toString v.1 ++ "\t" ++
      String.intercalate "|" v.2)

lemma lookup_eq_some_of_mem {β : Type} (m : List (Int × β)) (k : Int) (v : β)
    (hnd : (m.map Prod.fst).Nodup) (hmem : (k, v) ∈ m) :
    List.lookup k m = some v := by
  induction m with
  | nil => cases hmem
  | cons p rest ih =>
    obtain ⟨k', v'⟩ := p
    simp only [List.map_cons, List.nodup_cons] at hnd
    rcases List.mem_cons.mp hmem with h | h
    · injection h with h1 h2
      subst h1
      subst h2
      simp [List.lookup]
    · have hne : k ≠ k' := by
        intro hkk
        subst hkk
        exact hnd.1 (List.mem_map.mpr ⟨(k, v), h, rfl⟩)
      have hbeq : (k == k') = false := by
        simpa using hne
      simp only [List.lookup, hbeq]
      exact ih hnd.2 h

lemma flatMap_if_eq_filter_map {β : Type} (l : List β) (pr : β → Prop)
    [DecidablePred pr] (fmt : β → String) :
    (l.flatMap fun v => if pr v then [] else [fmt v]) =
      (l.filter (fun v => !(decide (pr v)))).map fmt := by
  induction l with
  | nil => rfl
  | cons hd tl ih => by_cases hp : pr hd <;> simp [hp, ih]

lemma flatMap_threshold_rows {κ : Type} (inner : List (κ × List String))
    (t : Int) (fmt : κ × List String → String) :
    (inner.flatMap fun v => if (v.2.length : Int) < t then [] else [fmt v]) =
      (inner.filter (fun v => decide (t ≤ (v.2.length : Int)))).map fmt := by
  rw [flatMap_if_eq_filter_map]
  congr 1
  apply List.filter_congr
  intro v _
  rw [← decide_not]
  exact decide_eq_decide.mpr not_lt

/-- C7: for report maps with distinct primary keys and any integer
threshold, each writer emits its header first; the body is the
concatenation, over the primary keys in ascending sorted order, of
exactly the rows whose sample list meets the threshold, each printed as
the 1-based key, the secondary key, and the sample names joined with
`|`; every qualifying entry yields a row and every row comes from a
qualifying entry. -/
theorem report_writer_spec (insmap : List (Int × List (String × List String)))
    (delmap : List (Int × List (Int × List String))) (t : Int)
    (hIns : (insmap.map Prod.fst).Nodup) (hDel : (delmap.map Prod.fst).Nodup) :
    (writeInsMapLines insmap t).head? = some "ref_start\tinsertion\tsamples" ∧
    (writeDelMapLines delmap t).head? = some "ref_start\tlength\tsamples" ∧
    (∃ ks, List.Sorted (fun a b => a ≤ b) ks ∧ ks.Perm (insmap.map Prod.fst) ∧
      (writeInsMapLines insmap t).tail = ks.flatMap (insRowsFor insmap t)) ∧
    (∃ ks, List.Sorted (fun a b => a ≤ b) ks ∧ ks.Perm (delmap.map Prod.fst) ∧
      (writeDelMapLines delmap t).tail = ks.flatMap (delRowsFor delmap t)) ∧
    (∀ k inner, (k, inner) ∈ insmap → ∀ v names, (v, names) ∈ inner →
      t ≤ (names.length : Int) →
      (toString (k + 1) ++ "\t" ++ v ++ "\t" ++ String.intercalate "|" names) ∈
        (writeInsMapLines insmap t).tail) ∧
    (∀ k inner, (k, inner) ∈ delmap → ∀ v names, (v, names) ∈ inner →
      t ≤ (names.length : Int) →
      (toString (k + 1) ++ "\t" ++ toString v ++ "\t" ++
        String.intercalate "|" names) ∈ (writeDelMapLines delmap t).tail) ∧
    (∀ line ∈ (writeInsMapLines insmap t).tail, ∃ k inner v names,
      (k, inner) ∈ insmap ∧ (v, names) ∈ inner ∧ t ≤ (names.length : Int) ∧
      line = toString (k + 1) ++ "\t" ++ v ++ "\t" ++
        String.intercalate "|" names) ∧
    (∀ line ∈ (writeDelMapLines delmap t).tail, ∃ k inner v names,
      (k, inner) ∈ delmap ∧ (v, names) ∈ inner ∧ t ≤ (names.length : Int) ∧
      line = toString (k + 1) ++ "\t" ++ toString v ++ "\t" ++
        String.intercalate "|" names) := by
  have hbodyIns : (writeInsMapLines insmap t).tail =
      (List.insertionSort (fun a b => a ≤ b) (insmap.map Prod.fst)).flatMap
        (insRowsFor insmap t) := by
    simp only [writeInsMapLines, List.tail_cons]
    simp only [flatMap_threshold_rows]
    rfl
  have hbodyDel : (writeDelMapLines delmap t).tail =
      (List.insertionSort (fun a b => a ≤ b) (delmap.map Prod.fst)).flatMap
        (delRowsFor delmap t) := by
    simp only [writeDelMapLines, List.tail_cons]
    simp only [flatMap_threshold_rows]
    rfl
  have hsortIns := List.sorted_insertionSort (fun a b : Int => a ≤ b)
    (insmap.map Prod.fst)
  have hsortDel := List.sorted_insertionSort (fun a b : Int => a ≤ b)
    (delmap.map Prod.fst)
  have hpermIns := List.perm_insertionSort (fun a b : Int => a ≤ b)
    (insmap.map Prod.fst)
  have hpermDel := List.perm_insertionSort (fun a b : Int => a ≤ b)
    (delmap.map Prod.fst)
  refine ⟨rfl, rfl, ⟨_, hsortIns, hpermIns, hbodyIns⟩,
    ⟨_, hsortDel, hpermDel, hbodyDel⟩, ?_, ?_, ?_, ?_⟩
  · intro k inner hmem v names hv ht
    rw [hbodyIns]
    refine List.mem_flatMap.mpr ⟨k, ?_, ?_⟩
    · exact hpermIns.mem_iff.mpr (List.mem_map.mpr ⟨(k, inner), hmem, rfl⟩)
    · unfold insRowsFor
      rw [lookup_eq_some_of_mem insmap k inner hIns hmem]
      refine List.mem_map.mpr ⟨(v, names), ?_, rfl⟩
      exact List.mem_filter.mpr ⟨hv, by simpa using ht⟩
  · intro k inner hmem v names hv ht
    rw [hbodyDel]
    refine List.mem_flatMap.mpr ⟨k, ?_, ?_⟩
    · exact hpermDel.mem_iff.mpr (List.mem_map.mpr ⟨(k, inner), hmem, rfl⟩)
    · unfold delRowsFor
      rw [lookup_eq_some_of_mem delmap k inner hDel hmem]
      refine List.mem_map.mpr ⟨(v, names), ?_, rfl⟩
      exact List.mem_filter.mpr ⟨hv, by simpa using ht⟩
  · intro line hline
    rw [hbodyIns] at hline
    obtain ⟨k, hk, hrow⟩ := List.mem_flatMap.mp hline
    have hkkeys : k ∈ insmap.map Prod.fst := hpermIns.mem_iff.mp hk
    obtain ⟨p, hpmem, hpfst⟩ := List.mem_map.mp hkkeys
    obtain ⟨k', inner⟩ := p
    cases hpfst
    unfold insRowsFor at hrow
    rw [lookup_eq_some_of_mem insmap k' inner hIns hpmem] at hrow
    obtain ⟨v, hvf, hvrow⟩ := List.mem_map.mp hrow
    obtain ⟨hvmem, hvdec⟩ := List.mem_filter.mp hvf
    exact ⟨k', inner, v.1, v.2, hpmem, hvmem, by simpa using hvdec, hvrow.symm⟩
  · intro line hline
    rw [hbodyDel] at hline
    obtain ⟨k, hk, hrow⟩ := List.mem_flatMap.mp hline
    have hkkeys : k ∈ delmap.map Prod.fst := hpermDel.mem_iff.mp hk
    obtain ⟨p, hpmem, hpfst⟩ := List.mem_map.mp hkkeys
    obtain ⟨k', inner⟩ := p
    cases hpfst
    unfold delRowsFor at hrow
    rw [lookup_eq_some_of_mem delmap k' inner hDel hpmem] at hrow
    obtain ⟨v, hvf, hvrow⟩ := List.mem_map.mp hrow
    obtain ⟨hvmem, hvdec⟩ := List.mem_filter.mp hvf
    exact ⟨k', inner, v.1, v.2, hpmem, hvmem, by simpa using hvdec, hvrow.symm⟩

/-- Witness for C7, the spec's threshold-filtering example: an entry
with 2 supporting samples is omitted at threshold 3 and included at
threshold 2; the header is written first. -/
theorem report_writer_spec_witness :
    (([(4, [("AC", ["s1", "s2"])])].map
      (Prod.fst (α := Int) (β := List (String × List String)))).Nodup ∧
    writeInsMapLines [(4, [("AC", ["s1", "s2"])])] 3 =
      ["ref_start\tinsertion\tsamples"] ∧
    writeInsMapLines [(4, [("AC", ["s1", "s2"])])] 2 =
      ["ref_start\tinsertion\tsamples", "5\tAC\ts1|s2"] ∧
    (writeInsMapLines [(4, [("AC", ["s1", "s2"])])] 2).head? =
      some "ref_start\tinsertion\tsamples") := by
  refine ⟨by decide, by decide, by decide, ?_⟩
  exact (report_writer_spec [(4, [("AC", ["s1", "s2"])])] [] 2
    (by decide) (by decide)).1

end Gofasta
